import Mathlib

/-!
# Verification of the rcsh command-language parser

Shallow embedding of the PEG grammar in `src/src/lib.rs` (grammar `parser`,
mirrored by `src/rcsh/src/lib.rs`).  Each rust-peg rule becomes a function
`List Char → Option (value × List Char)` returning the parsed value and the
unconsumed remainder; `none` models a parse failure (clean, nothing
consumed — backtracking in the ordered choices is the caller retrying on the
original input).  The public entry rules generated by rust-peg additionally
require the whole input to be consumed; `run` models that wrapper.

Greedy PEG repetitions (`+`, `*`, `**`) are possessive: they never give back
characters, which the `take…` scanners and the fuelled separator loop model.
-/

namespace Rcsh

/-- AST argument type, from `mod ast` in `src/src/lib.rs`.  Text is
modelled as `List Char` to keep induction over characters direct. -/
inductive Arg where
  | Var : List Char → Arg
  | Word : List Char → Arg
deriving DecidableEq, Repr

/-- AST statement type, from `mod ast` in `src/src/lib.rs`. -/
inductive Stmt where
  | Assignment : Arg → List Arg → Stmt
  | Command : Arg → List Arg → Stmt
deriving DecidableEq, Repr

/-- A parsing rule: consumes a prefix of the input, returns value and rest. -/
def Parser (α : Type) : Type := List Char → Option (α × List Char)

/-- The single-quote character (written by codepoint to keep source plain). -/
def quoteChar : Char := Char.ofNat 39

/-- The special characters of `rule chr()`: they terminate unquoted words. -/
def specialChar (c : Char) : Bool :=
  c = '#' || c = '$' || c = '|' || c = '&' || c = ';' || c = '(' || c = ')' ||
    c = '<' || c = '>' || c = ' ' || c = '\t' || c = '\n'

/-- `rule _()`: exactly one horizontal-whitespace character (space or tab). -/
def ws : Parser Unit := fun input =>
  match input with
  | [] => none
  | c :: rest => if c = ' ' || c = '\t' then some ((), rest) else none

/-- Greedy scan of `chr()*`: the maximal prefix of ordinary characters. -/
def takeOrdinary : List Char → List Char × List Char
  | [] => ([], [])
  | c :: rest =>
    if specialChar c then ([], c :: rest)
    else
      let (w, r) := takeOrdinary rest
      (c :: w, r)

/-- `pub rule word_unquoted() = w:$(chr()+)`: one-or-more ordinary chars. -/
def word_unquotedCore : Parser Arg := fun input =>
  match takeOrdinary input with
  | ([], _) => none
  | (w, rest) => some (Arg.Word w, rest)

/-- Greedy scan of `(!"'" [_])*`: the maximal prefix without a quote. -/
def takeNonQuote : List Char → List Char × List Char
  | [] => ([], [])
  | c :: rest =>
    if c = quoteChar then ([], c :: rest)
    else
      let (s, r) := takeNonQuote rest
      (c :: s, r)

/-- `pub rule word_quoted()`: quote, zero-or-more non-quote chars, quote. -/
def word_quotedCore : Parser Arg := fun input =>
  match input with
  | [] => none
  | c :: rest =>
    if c = quoteChar then
      match takeNonQuote rest with
      | (s, r) =>
        match r with
        | [] => none
        | c2 :: r2 => if c2 = quoteChar then some (Arg.Word s, r2) else none
    else none

/-- `pub rule word() = word_quoted() / word_unquoted()` (ordered choice). -/
def wordCore : Parser Arg := fun input =>
  match word_quotedCore input with
  | some r => some r
  | none => word_unquotedCore input

/-- The name alphabet `['a'..='z' | 'A'..='Z' | '0'..='9' | '%' | '*' | '_' | '-']`. -/
def nameChar (c : Char) : Bool :=
  ('a' ≤ c && c ≤ 'z') || ('A' ≤ c && c ≤ 'Z') || ('0' ≤ c && c ≤ '9') ||
    c = '%' || c = '*' || c = '_' || c = '-'

/-- Greedy scan of name characters: the maximal name prefix. -/
def takeName : List Char → List Char × List Char
  | [] => ([], [])
  | c :: rest =>
    if nameChar c then
      let (n, r) := takeName rest
      (c :: n, r)
    else ([], c :: rest)

/-- `pub rule name()`: one-or-more name characters, maximal munch. -/
def nameCore : Parser (List Char) := fun input =>
  match takeName input with
  | ([], _) => none
  | (n, rest) => some (n, rest)

/-- `pub rule reference() = "$" v:name()`: a `$` immediately followed by a name. -/
def referenceCore : Parser Arg := fun input =>
  match input with
  | [] => none
  | c :: rest =>
    if c = '$' then
      match nameCore rest with
      | some (n, r) => some (Arg.Var n, r)
      | none => none
    else none

/-- `pub rule arg() = reference() / word()` (ordered choice). -/
def argCore : Parser Arg := fun input =>
  match referenceCore input with
  | some r => some r
  | none => wordCore input

/-- The trailing loop of rust-peg `arg() ** _` after a first element: try one
separator (`_`, exactly one space or tab) then one `arg`; if either fails,
stop without consuming the separator.  Fuelled; each iteration consumes at
least two characters, so fuel equal to the input length is always enough. -/
def sepArgsLoop : Nat → List Char → List Arg × List Char
  | 0, input => ([], input)
  | Nat.succ fuel, input =>
    match ws input with
    | none => ([], input)
    | some (_, r2) =>
      match argCore r2 with
      | none => ([], input)
      | some (v, r3) =>
        let (vs, rest) := sepArgsLoop fuel r3
        (v :: vs, rest)

/-- `arg() ** _`: zero-or-more `arg` separated by exactly one space or tab.
Never fails (zero matches is a success consuming nothing). -/
def sepArgs (input : List Char) : List Arg × List Char :=
  match argCore input with
  | none => ([], input)
  | some (v, r) =>
    let (vs, rest) := sepArgsLoop input.length r
    (v :: vs, rest)

/-- The parenthesized alternative of `list`: `"(" x:(arg() ** _) ")"`. -/
def parenAlt : Parser (List Arg) := fun input =>
  match input with
  | [] => none
  | c :: r =>
    if c = '(' then
      match sepArgs r with
      | (vs, rest) =>
        match rest with
        | [] => none
        | c2 :: r2 => if c2 = ')' then some (vs, r2) else none
    else none

/-- `pub rule list()`: parenthesized form first, else the bare form (which
always succeeds, possibly with zero elements). -/
def listCore : Parser (List Arg) := fun input =>
  match parenAlt input with
  | some r => some r
  | none =>
    let (vs, rest) := sepArgs input
    some (vs, rest)

/-- `pub rule assignment() = n:arg() _ "=" _ x:list()`. -/
def assignmentCore : Parser Stmt := fun input =>
  match argCore input with
  | none => none
  | some (n, r1) =>
    match ws r1 with
    | none => none
    | some (_, r2) =>
      match r2 with
      | [] => none
      | c :: r3 =>
        if c = '=' then
          match ws r3 with
          | none => none
          | some (_, r4) =>
            match listCore r4 with
            | none => none
            | some (x, r5) => some (Stmt.Assignment n x, r5)
        else none

/-- `pub rule command() = n:arg() _ x:list()`. -/
def commandCore : Parser Stmt := fun input =>
  match argCore input with
  | none => none
  | some (n, r1) =>
    match ws r1 with
    | none => none
    | some (_, r2) =>
      match listCore r2 with
      | none => none
      | some (x, r3) => some (Stmt.Command n x, r3)

/-- The wrapper rust-peg generates for every `pub rule`: the rule must match
and consume the entire input, otherwise the call errors. -/
def run {α : Type} (p : Parser α) (s : List Char) : Option α :=
  match p s with
  | some (v, []) => some v
  | _ => none

/-- Public entry `parser::word_unquoted`. -/
def word_unquoted (s : List Char) : Option Arg := run word_unquotedCore s

/-- Public entry `parser::word_quoted`. -/
def word_quoted (s : List Char) : Option Arg := run word_quotedCore s

/-- Public entry `parser::word`. -/
def word (s : List Char) : Option Arg := run wordCore s

/-- Public entry `parser::name`. -/
def name (s : List Char) : Option (List Char) := run nameCore s

/-- Public entry `parser::reference`. -/
def reference (s : List Char) : Option Arg := run referenceCore s

/-- Public entry `parser::arg`. -/
def arg (s : List Char) : Option Arg := run argCore s

/-- Public entry `parser::list`. -/
def list (s : List Char) : Option (List Arg) := run listCore s

/-- Public entry `parser::assignment`. -/
def assignment (s : List Char) : Option Stmt := run assignmentCore s

/-- Public entry `parser::command`. -/
def command (s : List Char) : Option Stmt := run commandCore s

/-- A character that is ordinary and is not the single quote: a word made of
such characters is parsed by `word_unquoted` and cannot be captured by the
quoted alternative. -/
def simpleChar (c : Char) : Bool := !specialChar c && !(c = quoteChar)

/-- The remainder starts with a special character (or is empty), so a greedy
ordinary-character scan stops exactly there. -/
def boundary (rest : List Char) : Prop :=
  rest = [] ∨ ∃ c r, rest = c :: r ∧ specialChar c = true

/-- The remainder starts with a non-name character (or is empty), so a greedy
name scan stops exactly there. -/
def nameBoundary (rest : List Char) : Prop :=
  rest = [] ∨ ∃ c r, rest = c :: r ∧ nameChar c = false

/-- The remainder after a list body: end of input, or a closing paren. -/
def stopAt (rest : List Char) : Prop :=
  rest = [] ∨ ∃ r, rest = ')' :: r

/-- Every word is nonempty and made of ordinary non-quote characters. -/
def validWords (wl : List (List Char)) : Prop :=
  ∀ w ∈ wl, w ≠ [] ∧ ∀ c ∈ w, simpleChar c = true

/-- The text of the words of `wl`, each preceded by one space, then `rest`:
what remains to be parsed by the separator loop after a first list element. -/
def tailWords : List (List Char) → List Char → List Char
  | [], rest => rest
  | w :: wl, rest => ' ' :: (w ++ tailWords wl rest)

/-- The text of the words of `wl` separated by single spaces, then `rest`. -/
def wordsText : List (List Char) → List Char → List Char
  | [], rest => rest
  | w :: wl, rest => w ++ tailWords wl rest

lemma takeOrdinary_cons_special (c : Char) (s : List Char) (hc : specialChar c = true) :
    takeOrdinary (c :: s) = ([], c :: s) := by
  simp [takeOrdinary, hc]

lemma takeOrdinary_cons_ord (c : Char) (s : List Char) (hc : specialChar c = false) :
    takeOrdinary (c :: s) = (c :: (takeOrdinary s).1, (takeOrdinary s).2) := by
  rcases h : takeOrdinary s with ⟨a, b⟩
  simp [takeOrdinary, hc, h]

lemma takeOrdinary_append (w rest : List Char) (hw : ∀ c ∈ w, specialChar c = false)
    (hrest : boundary rest) : takeOrdinary (w ++ rest) = (w, rest) := by
  induction w with
  | nil =>
    rcases hrest with rfl | ⟨c, r, rfl, hc⟩
    · rfl
    · exact takeOrdinary_cons_special c r hc
  | cons c w ih =>
    have hc : specialChar c = false := hw c (by simp)
    rw [List.cons_append, takeOrdinary_cons_ord c _ hc,
      ih (fun d hd => hw d (by simp [hd]))]

lemma takeOrdinary_spec (s : List Char) :
    s = (takeOrdinary s).1 ++ (takeOrdinary s).2 ∧
      (∀ c ∈ (takeOrdinary s).1, specialChar c = false) ∧ boundary (takeOrdinary s).2 := by
  induction s with
  | nil => exact ⟨rfl, fun c hc => absurd hc (List.not_mem_nil c), Or.inl rfl⟩
  | cons c s ih =>
    obtain ⟨ih1, ih2, ih3⟩ := ih
    by_cases hc : specialChar c = true
    · rw [takeOrdinary_cons_special c s hc]
      exact ⟨rfl, by simp, Or.inr ⟨c, s, rfl, hc⟩⟩
    · simp only [Bool.not_eq_true] at hc
      rw [takeOrdinary_cons_ord c s hc]
      refine ⟨by simpa using ih1, ?_, ih3⟩
      intro d hd
      rcases List.mem_cons.mp hd with rfl | hd
      · exact hc
      · exact ih2 d hd

lemma takeNonQuote_cons (c : Char) (s : List Char) (hc : ¬(c = quoteChar)) :
    takeNonQuote (c :: s) = (c :: (takeNonQuote s).1, (takeNonQuote s).2) := by
  rcases h : takeNonQuote s with ⟨a, b⟩
  simp [takeNonQuote, hc, h]

lemma takeNonQuote_append (s r : List Char) (hs : quoteChar ∉ s) :
    takeNonQuote (s ++ quoteChar :: r) = (s, quoteChar :: r) := by
  induction s with
  | nil => simp [takeNonQuote]
  | cons c s ih =>
    have hc : ¬(c = quoteChar) := fun h => hs (by simp [h])
    rw [List.cons_append, takeNonQuote_cons c _ hc, ih (fun h => hs (by simp [h]))]

lemma takeNonQuote_all (s : List Char) (hs : quoteChar ∉ s) :
    takeNonQuote s = (s, []) := by
  induction s with
  | nil => rfl
  | cons c s ih =>
    have hc : ¬(c = quoteChar) := fun h => hs (by simp [h])
    rw [takeNonQuote_cons c _ hc, ih (fun h => hs (by simp [h]))]

lemma takeName_cons_name (c : Char) (s : List Char) (hc : nameChar c = true) :
    takeName (c :: s) = (c :: (takeName s).1, (takeName s).2) := by
  rcases h : takeName s with ⟨a, b⟩
  simp [takeName, hc, h]

lemma takeName_cons_other (c : Char) (s : List Char) (hc : nameChar c = false) :
    takeName (c :: s) = ([], c :: s) := by
  simp [takeName, hc]

lemma takeName_append (n rest : List Char) (hn : ∀ c ∈ n, nameChar c = true)
    (hrest : nameBoundary rest) : takeName (n ++ rest) = (n, rest) := by
  induction n with
  | nil =>
    rcases hrest with rfl | ⟨c, r, rfl, hc⟩
    · rfl
    · exact takeName_cons_other c r hc
  | cons c n ih =>
    have hc : nameChar c = true := hn c (by simp)
    rw [List.cons_append, takeName_cons_name c _ hc,
      ih (fun d hd => hn d (by simp [hd]))]

lemma takeName_spec (s : List Char) :
    s = (takeName s).1 ++ (takeName s).2 ∧
      (∀ c ∈ (takeName s).1, nameChar c = true) ∧ nameBoundary (takeName s).2 := by
  induction s with
  | nil => exact ⟨rfl, fun c hc => absurd hc (List.not_mem_nil c), Or.inl rfl⟩
  | cons c s ih =>
    obtain ⟨ih1, ih2, ih3⟩ := ih
    by_cases hc : nameChar c = true
    · rw [takeName_cons_name c s hc]
      refine ⟨by simpa using ih1, ?_, ih3⟩
      intro d hd
      rcases List.mem_cons.mp hd with rfl | hd
      · exact hc
      · exact ih2 d hd
    · simp only [Bool.not_eq_true] at hc
      rw [takeName_cons_other c s hc]
      exact ⟨rfl, by simp, Or.inr ⟨c, s, rfl, hc⟩⟩

lemma simpleChar_special (c : Char) (h : simpleChar c = true) : specialChar c = false := by
  simp only [simpleChar, Bool.and_eq_true, Bool.not_eq_true'] at h
  exact h.1

lemma simpleChar_quote (c : Char) (h : simpleChar c = true) : ¬(c = quoteChar) := by
  simp only [simpleChar, Bool.and_eq_true, Bool.not_eq_true'] at h
  intro hq
  have := h.2
  rw [hq] at this
  simp at this

lemma word_unquotedCore_eq (s w rest : List Char) (h : takeOrdinary s = (w, rest))
    (hw : w ≠ []) : word_unquotedCore s = some (Arg.Word w, rest) := by
  cases w with
  | nil => exact absurd rfl hw
  | cons c w' => simp [word_unquotedCore, h]

lemma word_unquotedCore_none (s rest : List Char) (h : takeOrdinary s = ([], rest)) :
    word_unquotedCore s = none := by
  simp [word_unquotedCore, h]

lemma word_quotedCore_cons_ne (c : Char) (s : List Char) (hc : ¬(c = quoteChar)) :
    word_quotedCore (c :: s) = none := by
  simp [word_quotedCore, hc]

lemma referenceCore_cons_ne (c : Char) (s : List Char) (hc : ¬(c = '$')) :
    referenceCore (c :: s) = none := by
  simp [referenceCore, hc]

lemma nameCore_eq (s n rest : List Char) (h : takeName s = (n, rest)) (hn : n ≠ []) :
    nameCore s = some (n, rest) := by
  cases n with
  | nil => exact absurd rfl hn
  | cons c n' => simp [nameCore, h]

lemma argCore_nil : argCore [] = none := rfl

lemma argCore_word (w rest : List Char) (hw : w ≠ []) (hsimple : ∀ c ∈ w, simpleChar c = true)
    (hrest : boundary rest) : argCore (w ++ rest) = some (Arg.Word w, rest) := by
  cases w with
  | nil => exact absurd rfl hw
  | cons c w' =>
    have hc := hsimple c (by simp)
    have hcs : specialChar c = false := simpleChar_special c hc
    have hcq : ¬(c = quoteChar) := simpleChar_quote c hc
    have hcd : ¬(c = '$') := by
      intro h
      rw [h] at hcs
      exact absurd hcs (by decide)
    have hto : takeOrdinary ((c :: w') ++ rest) = (c :: w', rest) :=
      takeOrdinary_append _ _ (fun d hd => simpleChar_special d (hsimple d hd)) hrest
    rw [List.cons_append] at hto ⊢
    simp [argCore, wordCore, referenceCore_cons_ne c _ hcd,
      word_quotedCore_cons_ne c _ hcq, word_unquotedCore_eq _ _ _ hto (by simp)]

lemma argCore_ref (n rest : List Char) (hn : n ≠ []) (hname : ∀ c ∈ n, nameChar c = true)
    (hrest : nameBoundary rest) : argCore ('$' :: (n ++ rest)) = some (Arg.Var n, rest) := by
  have ht : takeName (n ++ rest) = (n, rest) := takeName_append n rest hname hrest
  simp [argCore, referenceCore, nameCore_eq _ _ _ ht hn]

lemma argCore_stop (c : Char) (r : List Char) (hc : specialChar c = true) (hd : ¬(c = '$')) :
    argCore (c :: r) = none := by
  have hcq : ¬(c = quoteChar) := by
    intro h
    rw [h] at hc
    exact absurd hc (by decide)
  simp [argCore, referenceCore_cons_ne c r hd, wordCore, word_quotedCore_cons_ne c r hcq,
    word_unquotedCore_none _ _ (takeOrdinary_cons_special c r hc)]

lemma run_some {α : Type} (p : Parser α) (s : List Char) (v : α) (h : p s = some (v, [])) :
    run p s = some v := by
  simp [run, h]

lemma run_inv {α : Type} (p : Parser α) (s : List Char) (v : α) (h : run p s = some v) :
    p s = some (v, []) := by
  unfold run at h
  rcases hp : p s with _ | ⟨w, rest⟩
  · rw [hp] at h
    simp at h
  · rw [hp] at h
    cases rest with
    | nil =>
      simp at h
      rw [h]
    | cons c r => simp at h

lemma run_none_rest {α : Type} (p : Parser α) (s : List Char) (v : α) (c : Char)
    (r : List Char) (h : p s = some (v, c :: r)) : run p s = none := by
  simp [run, h]

lemma sepArgsLoop_nil (fuel : Nat) : sepArgsLoop fuel [] = ([], []) := by
  cases fuel <;> rfl

lemma sepArgsLoop_stop (fuel : Nat) (rest : List Char) (hrest : stopAt rest) :
    sepArgsLoop fuel rest = ([], rest) := by
  rcases hrest with rfl | ⟨r, rfl⟩
  · exact sepArgsLoop_nil fuel
  · cases fuel <;> rfl

lemma boundary_tailWords (wl : List (List Char)) (rest : List Char) (hrest : stopAt rest) :
    boundary (tailWords wl rest) := by
  cases wl with
  | nil =>
    rcases hrest with rfl | ⟨r, rfl⟩
    · exact Or.inl rfl
    · exact Or.inr ⟨')', r, rfl, by decide⟩
  | cons w2 wl2 => exact Or.inr ⟨' ', w2 ++ tailWords wl2 rest, rfl, by decide⟩

lemma sepArgsLoop_words (wl : List (List Char)) (rest : List Char) (hrest : stopAt rest) :
    ∀ fuel, validWords wl → (tailWords wl rest).length ≤ fuel →
      sepArgsLoop fuel (tailWords wl rest) = (List.map Arg.Word wl, rest) := by
  induction wl with
  | nil =>
    intro fuel _ _
    exact sepArgsLoop_stop fuel rest hrest
  | cons w wl ih =>
    intro fuel hvalid hfuel
    obtain ⟨hw1, hw2⟩ := hvalid w (by simp)
    cases fuel with
    | zero =>
      exfalso
      have h0 : (tailWords (w :: wl) rest).length = 0 := Nat.le_zero.mp hfuel
      simp [tailWords] at h0
    | succ f =>
      have hws : ws (tailWords (w :: wl) rest) = some ((), w ++ tailWords wl rest) := by
        simp [tailWords, ws]
      have harg : argCore (w ++ tailWords wl rest) = some (Arg.Word w, tailWords wl rest) :=
        argCore_word w _ hw1 hw2 (boundary_tailWords wl rest hrest)
      have hf2 : (tailWords wl rest).length ≤ f := by
        simp only [tailWords, List.length_cons, List.length_append] at hfuel
        omega
      have hrec := ih f (fun u hu => hvalid u (by simp [hu])) hf2
      simp [sepArgsLoop, hws, harg, hrec]

lemma sepArgs_words (wl : List (List Char)) (rest : List Char) (hvalid : validWords wl)
    (hrest : stopAt rest) : sepArgs (wordsText wl rest) = (List.map Arg.Word wl, rest) := by
  cases wl with
  | nil =>
    have harg : argCore rest = none := by
      rcases hrest with rfl | ⟨r, rfl⟩
      · exact argCore_nil
      · exact argCore_stop ')' r (by decide) (by decide)
    simp [sepArgs, wordsText, harg]
  | cons w wl =>
    obtain ⟨hw1, hw2⟩ := hvalid w (by simp)
    have harg : argCore (w ++ tailWords wl rest) = some (Arg.Word w, tailWords wl rest) :=
      argCore_word w _ hw1 hw2 (boundary_tailWords wl rest hrest)
    have hloop := sepArgsLoop_words wl rest hrest (w ++ tailWords wl rest).length
      (fun u hu => hvalid u (by simp [hu])) (by simp)
    simp only [List.length_append] at hloop
    simp [sepArgs, wordsText, harg, hloop]

lemma parenAlt_cons_ne (c : Char) (r : List Char) (hc : ¬(c = '(')) :
    parenAlt (c :: r) = none := by
  simp [parenAlt, hc]

lemma listCore_bare_words (wl : List (List Char)) (hvalid : validWords wl) :
    listCore (wordsText wl []) = some (List.map Arg.Word wl, []) := by
  have hsep := sepArgs_words wl [] hvalid (Or.inl rfl)
  have hpa : parenAlt (wordsText wl []) = none := by
    cases wl with
    | nil => rfl
    | cons w wl =>
      obtain ⟨hw1, hw2⟩ := hvalid w (by simp)
      cases w with
      | nil => exact absurd rfl hw1
      | cons c w' =>
        have hcp : ¬(c = '(') := by
          intro h
          have hs := simpleChar_special c (hw2 c (by simp))
          rw [h] at hs
          exact absurd hs (by decide)
        exact parenAlt_cons_ne c _ hcp
  simp [listCore, hpa, hsep]

lemma listCore_paren_words (wl : List (List Char)) (hvalid : validWords wl) :
    listCore ('(' :: wordsText wl [')']) = some (List.map Arg.Word wl, []) := by
  have hsep := sepArgs_words wl [')'] hvalid (Or.inr ⟨[], rfl⟩)
  simp [listCore, parenAlt, hsep]

lemma list_bare_words (wl : List (List Char)) (hvalid : validWords wl) :
    list (wordsText wl []) = some (List.map Arg.Word wl) :=
  run_some _ _ _ (listCore_bare_words wl hvalid)

lemma list_paren_words (wl : List (List Char)) (hvalid : validWords wl) :
    list ('(' :: wordsText wl [')']) = some (List.map Arg.Word wl) :=
  run_some _ _ _ (listCore_paren_words wl hvalid)

lemma word_unquotedCore_inv (s : List Char) (t : Arg) (rest : List Char)
    (h : word_unquotedCore s = some (t, rest)) :
    ∃ w, w ≠ [] ∧ takeOrdinary s = (w, rest) ∧ t = Arg.Word w := by
  rcases ht : takeOrdinary s with ⟨a, b⟩
  cases a with
  | nil => simp [word_unquotedCore, ht] at h
  | cons d a' =>
    simp only [word_unquotedCore, ht, Option.some.injEq, Prod.mk.injEq] at h
    obtain ⟨h1, h2⟩ := h
    subst h2
    exact ⟨d :: a', by simp, rfl, h1.symm⟩

lemma nameCore_inv (s : List Char) (n rest : List Char) (h : nameCore s = some (n, rest)) :
    n ≠ [] ∧ takeName s = (n, rest) := by
  rcases ht : takeName s with ⟨a, b⟩
  cases a with
  | nil => simp [nameCore, ht] at h
  | cons d a' =>
    simp only [nameCore, ht, Option.some.injEq, Prod.mk.injEq] at h
    obtain ⟨h1, h2⟩ := h
    subst h1
    subst h2
    exact ⟨by simp, rfl⟩

lemma argCore_extend (tw : List Char) (t : Arg) (r : List Char) (hq : quoteChar ∉ tw)
    (h : argCore tw = some (t, [])) : argCore (tw ++ ' ' :: r) = some (t, ' ' :: r) := by
  cases tw with
  | nil => rw [argCore_nil] at h; exact absurd h (by simp)
  | cons c tw' =>
    by_cases hc : c = '$'
    · subst hc
      have hwq : word_quotedCore ('$' :: tw') = none := word_quotedCore_cons_ne _ _ (by decide)
      have hwu : word_unquotedCore ('$' :: tw') = none :=
        word_unquotedCore_none _ _ (takeOrdinary_cons_special _ _ (by decide))
      have href : referenceCore ('$' :: tw') = some (t, []) := by
        rcases hr : referenceCore ('$' :: tw') with _ | x
        · simp only [argCore, hr, wordCore, hwq, hwu] at h
          exact absurd h (by simp)
        · simp only [argCore, hr] at h
          exact h
      rcases hn : nameCore tw' with _ | ⟨n, rr⟩
      · rw [show referenceCore ('$' :: tw') = none from by simp [referenceCore, hn]] at href
        exact absurd href (by simp)
      · rw [show referenceCore ('$' :: tw') = some (Arg.Var n, rr) from by
          simp [referenceCore, hn]] at href
        injection href with h1
        injection h1 with hA hB
        subst hB
        subst hA
        obtain ⟨hne, htn⟩ := nameCore_inv tw' n [] hn
        have hsplit : tw' = n := by
          obtain ⟨h1, _, _⟩ := takeName_spec tw'
          rw [htn] at h1
          simpa using h1
        have hnames : ∀ c ∈ n, nameChar c = true := by
          obtain ⟨_, h2, _⟩ := takeName_spec tw'
          rw [htn] at h2
          simpa using h2
        subst hsplit
        rw [List.cons_append]
        exact argCore_ref _ (' ' :: r) hne hnames (Or.inr ⟨' ', r, rfl, by decide⟩)
    · have href : referenceCore (c :: tw') = none := referenceCore_cons_ne _ _ hc
      have hcq : ¬(c = quoteChar) := fun h' => hq (by simp [h'])
      have hwq : word_quotedCore (c :: tw') = none := word_quotedCore_cons_ne _ _ hcq
      have hwu : word_unquotedCore (c :: tw') = some (t, []) := by
        simp only [argCore, href, wordCore, hwq] at h
        exact h
      obtain ⟨w, hwne, hto, htw⟩ := word_unquotedCore_inv _ _ _ hwu
      obtain ⟨hsplit, hords, _⟩ := takeOrdinary_spec (c :: tw')
      rw [hto] at hsplit hords
      simp only [List.append_nil] at hsplit
      rw [hsplit, htw]
      apply argCore_word w (' ' :: r) hwne _ (Or.inr ⟨' ', r, rfl, by decide⟩)
      intro d hd
      have hds : specialChar d = false := hords d hd
      have hdq : ¬(d = quoteChar) := by
        intro hdq
        subst hdq
        rw [hsplit] at hq
        exact hq hd
      simp [simpleChar, hds, hdq]

lemma assignment_general (tw : List Char) (t : Arg) (w : List Char) (v : List Arg)
    (hq : quoteChar ∉ tw) (ht : arg tw = some t) (hw : list w = some v) :
    assignment (tw ++ ' ' :: '=' :: ' ' :: w) = some (Stmt.Assignment t v) := by
  have htc : argCore tw = some (t, []) := run_inv _ _ _ ht
  have hext : argCore (tw ++ ' ' :: '=' :: ' ' :: w) = some (t, ' ' :: '=' :: ' ' :: w) :=
    argCore_extend tw t _ hq htc
  have hlc : listCore w = some (v, []) := run_inv _ _ _ hw
  apply run_some
  simp [assignmentCore, hext, ws, hlc]

lemma arg_ref_entry (n : List Char) (hn : n ≠ []) (hname : ∀ c ∈ n, nameChar c = true) :
    arg ('$' :: n) = some (Arg.Var n) := by
  have h := argCore_ref n [] hn hname (Or.inl rfl)
  rw [List.append_nil] at h
  exact run_some _ _ _ h

lemma quote_not_mem_ref (n : List Char) (hname : ∀ c ∈ n, nameChar c = true) :
    quoteChar ∉ '$' :: n := by
  intro hmem
  rcases List.mem_cons.mp hmem with h | h
  · exact absurd h (by decide)
  · exact absurd (hname quoteChar h) (by decide)

lemma word_unquoted_full (s : List Char) (hne : s ≠ [])
    (hord : ∀ c ∈ s, specialChar c = false) : word_unquoted s = some (Arg.Word s) := by
  have ht : takeOrdinary s = (s, []) := by
    have h := takeOrdinary_append s [] hord (Or.inl rfl)
    simpa using h
  exact run_some _ _ _ (word_unquotedCore_eq s s [] ht hne)

/-- C1: the assignment rule parses its target via the full `arg` rule, so a
variable reference is a legal assignment target: for every valid name `n` and
every value text `w` accepted by `list`, `assignment("$" + n + " = " + w)`
succeeds with target `Var(n)`; in particular
`assignment("$pointer = value") = Assignment(Var("pointer"), [Word("value")])`. -/
theorem C1_assignment_indirect_target :
    (∀ n w v, n ≠ [] → (∀ c ∈ n, nameChar c = true) → list w = some v →
      assignment ('$' :: n ++ ' ' :: '=' :: ' ' :: w) =
        some (Stmt.Assignment (Arg.Var n) v)) ∧
    assignment ("$pointer = value".toList) =
      some (Stmt.Assignment (Arg.Var ("pointer".toList)) [Arg.Word ("value".toList)]) := by
  constructor
  · intro n w v h1 h2 h3
    have h := assignment_general ('$' :: n) (Arg.Var n) w v
      (quote_not_mem_ref n h2) (arg_ref_entry n h1 h2) h3
    simpa using h
  · decide

/-- Witness for C1 at `n = "p"`, `w = "v"`. -/
theorem C1_assignment_indirect_target_witness :
    assignment ('$' :: ("p".toList) ++ ' ' :: '=' :: ' ' :: ("v".toList)) =
      some (Stmt.Assignment (Arg.Var ("p".toList)) [Arg.Word ("v".toList)]) :=
  C1_assignment_indirect_target.1 ("p".toList) ("v".toList) [Arg.Word ("v".toList)]
    (by decide) (by decide) (by decide)

/-- C2 counterexample: whitespace around `=` is not optional — the rule `_`
matches exactly one space or tab, so `assignment("a=1")` fails although the
claim says it succeeds. -/
theorem C2_assignment_whitespace_cex : assignment ("a=1".toList) = none := by decide

/-- C2 (amended): the assignment rule requires exactly one
horizontal-whitespace character on each side of `=`; with a single space on
each side, every quote-free target accepted by `arg` and every value text
accepted by `list` parse to the corresponding `Assignment`; `assignment("a=1")`
fails and `assignment("a = 1") = Assignment(Word("a"), [Word("1")])`. -/
theorem C2_assignment_whitespace_amended :
    (∀ tw t w v, quoteChar ∉ tw → arg tw = some t → list w = some v →
      assignment (tw ++ ' ' :: '=' :: ' ' :: w) = some (Stmt.Assignment t v)) ∧
    assignment ("a=1".toList) = none ∧
    assignment ("a = 1".toList) =
      some (Stmt.Assignment (Arg.Word ("a".toList)) [Arg.Word ("1".toList)]) :=
  ⟨fun tw t w v hq ht hw => assignment_general tw t w v hq ht hw, by decide, by decide⟩

/-- Witness for the amended C2 at `tw = "x"`, `w = "2"`. -/
theorem C2_assignment_whitespace_witness :
    assignment (("x".toList) ++ ' ' :: '=' :: ' ' :: ("2".toList)) =
      some (Stmt.Assignment (Arg.Word ("x".toList)) [Arg.Word ("2".toList)]) :=
  C2_assignment_whitespace_amended.1 ("x".toList) (Arg.Word ("x".toList)) ("2".toList)
    [Arg.Word ("2".toList)] (by decide) (by decide) (by decide)

/-- C3 counterexample: the separator between list elements is exactly one
horizontal-whitespace character, not one-or-more — `list("a  b")` (two
spaces) fails although the claim says it succeeds for every `k ≥ 1`. -/
theorem C3_list_separator_cex : list ("a  b".toList) = none := by decide

/-- C3 (amended): consecutive `arg` elements of a list are separated by
exactly one horizontal-whitespace character: for nonempty words `a`, `b` of
ordinary non-quote characters, `list(a + " " + b) = [Word(a), Word(b)]`,
while `list("a  b")` with two spaces fails. -/
theorem C3_list_separator_amended :
    (∀ a b : List Char, a ≠ [] → (∀ c ∈ a, simpleChar c = true) →
      b ≠ [] → (∀ c ∈ b, simpleChar c = true) →
      list (a ++ ' ' :: b) = some [Arg.Word a, Arg.Word b]) ∧
    list ("a  b".toList) = none := by
  refine ⟨?_, by decide⟩
  intro a b ha1 ha2 hb1 hb2
  have hv : validWords [a, b] := by
    intro u hu
    rcases List.mem_cons.mp hu with rfl | hu
    · exact ⟨ha1, ha2⟩
    · rcases List.mem_cons.mp hu with rfl | hu
      · exact ⟨hb1, hb2⟩
      · exact absurd hu (List.not_mem_nil u)
  have h := list_bare_words [a, b] hv
  simpa [wordsText, tailWords] using h

/-- Witness for the amended C3 at `a = "a"`, `b = "b"`. -/
theorem C3_list_separator_witness :
    list (("a".toList) ++ ' ' :: ("b".toList)) =
      some [Arg.Word ("a".toList), Arg.Word ("b".toList)] :=
  C3_list_separator_amended.1 ("a".toList) ("b".toList) (by decide) (by decide)
    (by decide) (by decide)

/-- C4: `word_quoted` strips the delimiting quotes and keeps the interior
verbatim: for every quote-free `s`, quote + s + quote parses to `Word(s)`;
the two-quote input gives the empty word (also through `word`); and with no
closing quote before the end of input, `word_quoted` fails. -/
theorem C4_word_quoted_verbatim :
    (∀ s : List Char, quoteChar ∉ s →
      word_quoted (quoteChar :: (s ++ [quoteChar])) = some (Arg.Word s) ∧
      word_quoted (quoteChar :: s) = none) ∧
    word_quoted [quoteChar, quoteChar] = some (Arg.Word []) ∧
    word [quoteChar, quoteChar] = some (Arg.Word []) := by
  refine ⟨?_, by decide, by decide⟩
  intro s hs
  constructor
  · apply run_some
    have ht := takeNonQuote_append s [] hs
    simp [word_quotedCore, ht]
  · have ht := takeNonQuote_all s hs
    simp [word_quoted, run, word_quotedCore, ht]

/-- Witness for C4 at `s = "ab"`. -/
theorem C4_word_quoted_verbatim_witness :
    word_quoted (quoteChar :: (("ab".toList) ++ [quoteChar])) =
      some (Arg.Word ("ab".toList)) ∧
    word_quoted (quoteChar :: ("ab".toList)) = none :=
  C4_word_quoted_verbatim.1 ("ab".toList) (by decide)

/-- C5: `word_unquoted` maps every nonempty all-ordinary input to the whole
input as one `Word`; it fails on empty input and when the first character is
special; and any word it returns contains only ordinary characters (hence no
whitespace or special character). -/
theorem C5_word_unquoted_ordinary :
    (∀ s : List Char, s ≠ [] → (∀ c ∈ s, specialChar c = false) →
      word_unquoted s = some (Arg.Word s)) ∧
    word_unquoted [] = none ∧
    (∀ c r, specialChar c = true → word_unquoted (c :: r) = none) ∧
    (∀ s t rest, word_unquotedCore s = some (t, rest) →
      ∃ w, t = Arg.Word w ∧ ∀ c ∈ w, specialChar c = false) := by
  refine ⟨fun s h1 h2 => word_unquoted_full s h1 h2, rfl, ?_, ?_⟩
  · intro c r hc
    have h := word_unquotedCore_none _ _ (takeOrdinary_cons_special c r hc)
    simp [word_unquoted, run, h]
  · intro s t rest h
    obtain ⟨w, hwne, hto, htw⟩ := word_unquotedCore_inv s t rest h
    refine ⟨w, htw, ?_⟩
    have hords := (takeOrdinary_spec s).2.1
    rw [hto] at hords
    simpa using hords

/-- Witness for C5 at `s = "abc"` and first character a space. -/
theorem C5_word_unquoted_ordinary_witness :
    word_unquoted ("abc".toList) = some (Arg.Word ("abc".toList)) ∧
    word_unquoted (' ' :: ("x".toList)) = none :=
  ⟨C5_word_unquoted_ordinary.1 ("abc".toList) (by decide) (by decide),
   C5_word_unquoted_ordinary.2.2.1 ' ' ("x".toList) (by decide)⟩

/-- C6: `reference` succeeds exactly on `$` immediately followed by a full
valid name: `reference("$" + n) = Var(n)` for every valid name `n`,
`reference("$")` fails, and `$` followed by a non-name character fails. -/
theorem C6_reference_dollar_name :
    (∀ n : List Char, n ≠ [] → (∀ c ∈ n, nameChar c = true) →
      reference ('$' :: n) = some (Arg.Var n)) ∧
    reference ['$'] = none ∧
    (∀ c r, nameChar c = false → reference ('$' :: c :: r) = none) := by
  refine ⟨?_, by decide, ?_⟩
  · intro n h1 h2
    have ht : takeName n = (n, []) := by
      have h := takeName_append n [] h2 (Or.inl rfl)
      simpa using h
    apply run_some
    simp [referenceCore, nameCore_eq n n [] ht h1]
  · intro c r hc
    have hnc : nameCore (c :: r) = none := by
      simp [nameCore, takeName_cons_other c r hc]
    simp [reference, run, referenceCore, hnc]

/-- Witness for C6 at `n = "a1"` and non-name character a slash. -/
theorem C6_reference_dollar_name_witness :
    reference ('$' :: ("a1".toList)) = some (Arg.Var ("a1".toList)) ∧
    reference ('$' :: '/' :: []) = none :=
  ⟨C6_reference_dollar_name.1 ("a1".toList) (by decide) (by decide),
   C6_reference_dollar_name.2.2 '/' [] (by decide)⟩

/-- C7: the parenthesized and bare list forms agree: `list("()") = []`, and
for every single-space-separated sequence of ordinary words both forms parse
to the same `Word` list, e.g. `list("(a b c)") = list("a b c")`. -/
theorem C7_list_paren_bare_equal :
    list ("()".toList) = some [] ∧
    (∀ wl, validWords wl →
      list ('(' :: wordsText wl [')']) = some (List.map Arg.Word wl) ∧
      list (wordsText wl []) = some (List.map Arg.Word wl)) ∧
    list ("(a b c)".toList) =
      some [Arg.Word ("a".toList), Arg.Word ("b".toList), Arg.Word ("c".toList)] ∧
    list ("a b c".toList) =
      some [Arg.Word ("a".toList), Arg.Word ("b".toList), Arg.Word ("c".toList)] := by
  refine ⟨by decide, ?_, by decide, by decide⟩
  intro wl hv
  exact ⟨list_paren_words wl hv, list_bare_words wl hv⟩

/-- Witness for C7 at the one-word list `["x"]`. -/
theorem C7_list_paren_bare_equal_witness :
    list ('(' :: wordsText [("x".toList)] [')']) =
      some (List.map Arg.Word [("x".toList)]) ∧
    list (wordsText [("x".toList)] []) = some (List.map Arg.Word [("x".toList)]) :=
  C7_list_paren_bare_equal.2.1 [("x".toList)] (by unfold validWords; decide)

/-- C8: `arg` tries `reference` before `word`, so a `$`-prefixed valid name is
always a `Var`, both as a lone `arg` and as a list element; in particular
`list("Hello $name") = [Word("Hello"), Var("name")]`. -/
theorem C8_arg_tries_reference_first :
    (∀ n : List Char, n ≠ [] → (∀ c ∈ n, nameChar c = true) →
      arg ('$' :: n) = some (Arg.Var n) ∧ list ('$' :: n) = some [Arg.Var n]) ∧
    list ("Hello $name".toList) =
      some [Arg.Word ("Hello".toList), Arg.Var ("name".toList)] := by
  refine ⟨?_, by decide⟩
  intro n h1 h2
  refine ⟨arg_ref_entry n h1 h2, ?_⟩
  have hac : argCore ('$' :: n) = some (Arg.Var n, []) := by
    have h := argCore_ref n [] h1 h2 (Or.inl rfl)
    simpa using h
  have hpa : parenAlt ('$' :: n) = none := parenAlt_cons_ne '$' n (by decide)
  apply run_some
  simp [listCore, hpa, sepArgs, hac, sepArgsLoop_nil]

/-- Witness for C8 at `n = "n"`. -/
theorem C8_arg_tries_reference_first_witness :
    arg ('$' :: ("n".toList)) = some (Arg.Var ("n".toList)) ∧
    list ('$' :: ("n".toList)) = some [Arg.Var ("n".toList)] :=
  C8_arg_tries_reference_first.1 ("n".toList) (by decide) (by decide)

/-- C9: every public entry rule errors when the grammar matches only a proper
prefix of the input; in particular `reference("$c$")` and
`reference("$path/name")` fail even though a valid reference is a prefix of
each (the cores consume `$c` and `$path` respectively). -/
theorem C9_whole_input_required :
    (∀ s v rest, rest ≠ [] → wordCore s = some (v, rest) → word s = none) ∧
    (∀ s v rest, rest ≠ [] → word_quotedCore s = some (v, rest) → word_quoted s = none) ∧
    (∀ s v rest, rest ≠ [] → word_unquotedCore s = some (v, rest) → word_unquoted s = none) ∧
    (∀ s v rest, rest ≠ [] → nameCore s = some (v, rest) → name s = none) ∧
    (∀ s v rest, rest ≠ [] → referenceCore s = some (v, rest) → reference s = none) ∧
    (∀ s v rest, rest ≠ [] → listCore s = some (v, rest) → list s = none) ∧
    (∀ s v rest, rest ≠ [] → assignmentCore s = some (v, rest) → assignment s = none) ∧
    (∀ s v rest, rest ≠ [] → commandCore s = some (v, rest) → command s = none) ∧
    referenceCore ("$c$".toList) = some (Arg.Var ("c".toList), ['$']) ∧
    reference ("$c$".toList) = none ∧
    referenceCore ("$path/name".toList) = some (Arg.Var ("path".toList), "/name".toList) ∧
    reference ("$path/name".toList) = none := by
  refine ⟨?_, ?_, ?_, ?_, ?_, ?_, ?_, ?_, by decide, by decide, by decide, by decide⟩
  all_goals
    intro s v rest hne h
    cases rest with
    | nil => exact absurd rfl hne
    | cons c r => exact run_none_rest _ _ _ _ _ h

/-- Witness for C9 at the reference entry on the input with trailing text. -/
theorem C9_whole_input_required_witness :
    reference ("$c$".toList) = none :=
  C9_whole_input_required.2.2.2.2.1 ("$c$".toList) (Arg.Var ("c".toList)) ['$']
    (by decide) (by decide)

/-- C10: `=` and the single quote are not special characters, so an unquoted
word may contain them: every nonempty all-ordinary input containing `=` (or a
quote) is one `Word`, `list("--var=value")` is a single literal word, and a
command argument containing `=` is not assignment syntax. -/
theorem C10_equals_and_quote_are_ordinary :
    specialChar '=' = false ∧
    specialChar quoteChar = false ∧
    (∀ s : List Char, s ≠ [] → (∀ c ∈ s, specialChar c = false) →
      ('=' ∈ s ∨ quoteChar ∈ s) → word_unquoted s = some (Arg.Word s)) ∧
    list ("--var=value".toList) = some [Arg.Word ("--var=value".toList)] ∧
    command ("cmd --var=value".toList) =
      some (Stmt.Command (Arg.Word ("cmd".toList)) [Arg.Word ("--var=value".toList)]) := by
  refine ⟨by decide, by decide, ?_, by decide, by decide⟩
  intro s h1 h2 _
  exact word_unquoted_full s h1 h2

/-- Witness for C10 at `s = "--var=value"`. -/
theorem C10_equals_and_quote_are_ordinary_witness :
    word_unquoted ("--var=value".toList) = some (Arg.Word ("--var=value".toList)) :=
  C10_equals_and_quote_are_ordinary.2.2.1 ("--var=value".toList) (by decide) (by decide)
    (by decide)

end Rcsh
